import Mathlib

/-!
Verification development for the databento-cpp historical client
(src/src/historical.cpp, src/include/databento/historical.hpp).

The embedding is shallow: the JSON handling, request-parameter building and
builder logic are translated directly from the source; the concurrent
TimeseriesStream coordinator is modelled as a small-step interleaving system
whose producer and consumer steps are translated from the body of
Historical::TimeseriesStream (historical.cpp lines 596-633).  The DBZ decoder
(DbzParser) and HttpClient::GetRawStream are not part of the sources, so they
are modelled from the specification, at frame granularity.
-/

namespace Databento

/-! ## A model of the nlohmann::json values used by historical.cpp

Objects are backed by std::map, so iteration is in sorted key order; keys are
unique.  Iterating a primitive value yields a single element; iterating null
yields nothing (nlohmann semantics). -/

inductive Json where
  | null
  | bool (b : Bool)
  | num (n : Int)
  | str (s : String)
  | arr (items : List Json)
  | obj (fields : List (String × Json))

/-- Insertion into a key-sorted association list, mirroring std::map order. -/
def insertSorted (f : String × Json) : List (String × Json) → List (String × Json)
  | [] => [f]
  | g :: gs => if f.1 < g.1 then f :: g :: gs else g :: insertSorted f gs

def sortFields (fs : List (String × Json)) : List (String × Json) :=
  fs.foldr insertSorted []

/-- Values produced by iterating json.items(): array elements in order, object
values in sorted key order, nothing for null, the value itself for other
primitives. -/
def Json.itemsValues : Json → List Json
  | .arr items => items
  | .obj fields => (sortFields fields).map Prod.snd
  | .null => []
  | j => [j]

def Json.isArr : Json → Bool
  | .arr _ => true
  | _ => false

/-- nlohmann json.contains: true only for objects holding the key. -/
def Json.containsKey (j : Json) (key : String) : Bool :=
  match j with
  | .obj fields => fields.any (fun f => f.1 == key)
  | _ => false

/-- nlohmann json.at on an object (callers guard with containsKey). -/
def Json.atKey (j : Json) (key : String) : Json :=
  match j with
  | .obj fields => (((fields.find? (fun f => f.1 == key)).map Prod.snd).getD .null)
  | _ => .null

/-- Errors thrown while handling a JSON response: MissingKey and TypeMismatch
from historical.cpp (lines 81-106), and the nlohmann type_error raised by an
implicit conversion of a non-string value to std::string. -/
inductive JsonErr where
  | missingKey (endpoint key : String)
  | typeMismatch (endpoint expected : String)
  | typeError
deriving DecidableEq, Repr

/-- CheckedAt (historical.cpp lines 108-115). -/
def CheckedAt (endpoint : String) (json : Json) (key : String) : Except JsonErr Json :=
  if json.containsKey key then .ok (json.atKey key)
  else .error (.missingKey endpoint key)

/-- Implicit conversion of a json value to std::string, as performed by
res.emplace_back(item.value()) into a std::vector of std::string. -/
def Json.asString : Json → Except JsonErr String
  | .str s => .ok s
  | _ => .error .typeError

/-- ParseAt specialised at std::vector of std::string (historical.cpp lines
172-186).  Translated exactly: after checking that the value at key is an
array, the source iterates json.items() - the WHOLE response object - and not
symbols_json, and reserves json.size(). -/
def ParseAtStringVec (endpoint : String) (json : Json) (key : String) :
    Except JsonErr (List String) := do
  let symbols_json ← CheckedAt endpoint json key
  if ¬ symbols_json.isArr then
    throw (.typeMismatch endpoint (key ++ " array"))
  else
    json.itemsValues.mapM Json.asString

/-- The response handling of Historical::BatchListJobs (historical.cpp lines
282-301) after the HTTP GET, with the per-item ::Parse call abstracted as
parseJob.  Translated exactly: the source evaluates
TypeMismatch(kEndpoint, "array", json) - a function that RETURNS a
runtime_error (line 88) - without a throw, so the constructed error is
discarded and the function proceeds to iterate json.items(). -/
def BatchListJobsHandle {β : Type} (parseJob : Json → Except JsonErr β)
    (json : Json) : Except JsonErr (List β) :=
  json.itemsValues.mapM parseJob

/-! ## Request parameter building (SetIfNotEmpty / SetIfPositive)

httplib::Params is a multimap; the claims are about which key-value pairs are
present, so the model tracks the inserted pairs as a list in insertion
order. -/

abbrev Params := List (String × String)

/-- SetIfNotEmpty for a single string value (historical.cpp lines 41-46). -/
def SetIfNotEmpty (params : Params) (key value : String) : Params :=
  if value = "" then params else params ++ [(key, value)]

/-- One step of the std::accumulate lambda of historical.cpp lines 52-55:
acc.empty() ? str : acc + "," + str. -/
def joinStep (acc str : String) : String :=
  if acc = "" then str else acc ++ "," ++ str

/-- The std::accumulate comma join of historical.cpp lines 51-55. -/
def commaJoin (strings : List String) : String :=
  strings.foldl joinStep ""

/-- SetIfNotEmpty for a vector of strings (historical.cpp lines 48-58). -/
def SetIfNotEmptyVec (params : Params) (key : String) (strings : List String) : Params :=
  if strings = [] then params else params ++ [(key, commaJoin strings)]

/-- SetIfPositive (historical.cpp lines 74-79). -/
def SetIfPositive (params : Params) (key : String) (value : Nat) : Params :=
  if value > 0 then params ++ [(key, toString value)] else params

/-- Follows the claim words only (for comparison with commaJoin): a single
comma-separated value preserving input order. -/
def commaSeparated : List String → String
  | [] => ""
  | [s] => s
  | s :: rest => s ++ "," ++ commaSeparated rest

/-- Arguments of the full Historical::BatchSubmitJob overload (historical.cpp
lines 250-270).  Enum-typed arguments appear through their ToString images,
since the enum-to-string tables live in enums.cpp which is not part of the
sources. -/
structure BatchSubmitJobArgs where
  dataset : String
  schemaStr : String
  symbols : List String
  startTs : String
  endTs : String
  splitDurationStr : String
  split_size : Nat
  packagingStr : String
  deliveryStr : String
  stypeInStr : String
  stypeOutStr : String
  limit : Nat

/-- The parameter set built by Historical::BatchSubmitJob (historical.cpp
lines 256-270): ten unconditional pairs, then SetIfPositive for split_size and
limit, then SetIfNotEmpty for symbols. -/
def BatchSubmitJobParams (a : BatchSubmitJobArgs) : Params :=
  let params : Params :=
    [("dataset", a.dataset), ("schema", a.schemaStr), ("encoding", "dbz"),
     ("start", a.startTs), ("end", a.endTs),
     ("split_duration", a.splitDurationStr), ("packaging", a.packagingStr),
     ("delivery", a.deliveryStr), ("stype_in", a.stypeInStr),
     ("stype_out", a.stypeOutStr)]
  let params := SetIfPositive params "split_size" a.split_size
  let params := SetIfPositive params "limit" a.limit
  SetIfNotEmptyVec params "symbols" a.symbols

/-! ## HistoricalBuilder (historical.cpp lines 635-659, historical.hpp 109-124) -/

inductive HistoricalGateway where
  | Bo1
  | Nearest
deriving DecidableEq, Repr

/-- The Historical client as far as the builder claims observe it: the stored
key and the gateway it was constructed from.  The real constructor maps the
gateway through UrlFromGateway (enums.cpp, not part of the sources) and also
builds an HttpClient. -/
structure Historical where
  key_ : String
  gateway_ : HistoricalGateway
deriving DecidableEq, Repr

/-- HistoricalBuilder state: key_ default-constructed empty, gateway_
initialised to Nearest (historical.hpp lines 110-111). -/
structure HistoricalBuilder where
  key_ : String := ""
  gateway_ : HistoricalGateway := .Nearest
deriving DecidableEq, Repr

inductive BuilderErr where
  | envUnset
  | keyUnset
deriving DecidableEq, Repr

def HistoricalBuilder.key (b : HistoricalBuilder) (k : String) : HistoricalBuilder :=
  { b with key_ := k }

def HistoricalBuilder.gateway (b : HistoricalBuilder) (g : HistoricalGateway) :
    HistoricalBuilder :=
  { b with gateway_ := g }

/-- HistoricalBuilder::keyFromEnv (historical.cpp lines 635-642); env is the
result of std::getenv("DATABENTO_API_KEY"), none when the variable is unset. -/
def HistoricalBuilder.keyFromEnv (b : HistoricalBuilder) (env : Option String) :
    Except BuilderErr HistoricalBuilder :=
  match env with
  | none => .error .envUnset
  | some k => .ok (b.key k)

/-- HistoricalBuilder::Build (historical.cpp lines 654-659). -/
def HistoricalBuilder.Build (b : HistoricalBuilder) : Except BuilderErr Historical :=
  if b.key_ = "" then .error .keyUnset
  else .ok { key_ := b.key_, gateway_ := b.gateway_ }

/-! ## Historical::TimeseriesStream (historical.cpp lines 596-633)

The coordinator spawns one std::thread whose lambda calls
client_.GetRawStream, feeding every received chunk into a DbzParser and
returning should_continue.load() from the content handler, then calls
dbz_parser.EndInput(); the calling thread parses the metadata, invokes the
metadata callback, loops record_count times over ParseRecord and the record
callback (assigning the stop flag from each callback result), and finally
calls stream.join().

DbzParser and HttpClient::GetRawStream are not part of the sources.
Modelled from the spec: the FrameDecoder of spec section 4.1, at frame
granularity - a chunk carries the frames whose final byte it delivers;
PassBytes appends them, ParseMetadata and ParseRecord block until a frame of
the right kind is available and fail once end-of-input has been signalled
with the queue empty; GetRawStream delivers chunks one at a time, stops when
the content handler returns false, and raises its transport error (spec
section 7, TransportError) once the transfer has failed.

An exception leaving the thread lambda calls std::terminate, as does the
destructor of a joinable std::thread during unwinding on the consumer side;
both are modelled by the aborted run status, on which every further step is
a no-op. -/

inductive KeepGoing where
  | Continue
  | Stop
deriving DecidableEq, Repr

structure Metadata where
  record_count : Nat
deriving DecidableEq, Repr

structure Rec where
  payload : Nat
deriving DecidableEq, Repr

inductive Frame where
  | meta (m : Metadata)
  | record (r : Rec)
deriving DecidableEq, Repr

abbrev Chunk := List Frame

def frameMetas (c : List Frame) : List Metadata :=
  c.filterMap fun f => match f with | .meta m => some m | .record _ => none

def frameRecs (c : List Frame) : List Rec :=
  c.filterMap fun f => match f with | .record r => some r | .meta _ => none

/-- Modelled from the spec: the decoder state visible to the consumer -
decoded-but-unconsumed metadata and record frames in arrival order, and
whether EndInput has been signalled. -/
structure DbzParserState where
  metaQ : List Metadata
  recQ : List Rec
  ended : Bool
deriving DecidableEq, Repr

/-- Modelled from the spec: PassBytes at frame granularity - a pure append. -/
def PassChunk (p : DbzParserState) (c : Chunk) : DbzParserState :=
  { p with metaQ := p.metaQ ++ frameMetas c, recQ := p.recQ ++ frameRecs c }

/-- Modelled from the spec: EndInput marks end-of-input. -/
def EndInput (p : DbzParserState) : DbzParserState := { p with ended := true }

/-- One run of TimeseriesStream is determined by the transport chunk sequence,
whether the chunked read fails with a transport error at the end of delivery,
and the two user callbacks; a callback result of none models a callback that
throws. -/
structure StreamInput where
  chunks : List Chunk
  tErr : Bool
  metaCb : Metadata → Bool
  recCb : Rec → Option KeepGoing

inductive ProdPhase where
  | deliver
  | done
  | threw
deriving DecidableEq, Repr

inductive ConsPhase where
  | awaitMeta
  | loop (remaining : Nat)
  | joinWait
deriving DecidableEq, Repr

inductive RunStatus where
  | running
  | returned
  | aborted
deriving DecidableEq, Repr

/-- Callback invocations, in order.  An invocation is recorded even when the
callback throws. -/
inductive Event where
  | metaEv (m : Metadata)
  | recEv (r : Rec)
deriving DecidableEq, Repr

structure Sys where
  parser : DbzParserState
  should_continue : Bool
  pending : List Chunk
  prod : ProdPhase
  cons : ConsPhase
  events : List Event
  status : RunStatus
deriving DecidableEq, Repr

def initSys (inp : StreamInput) : Sys :=
  { parser := ⟨[], [], false⟩, should_continue := true, pending := inp.chunks,
    prod := .deliver, cons := .awaitMeta, events := [], status := .running }

/-- One step of the producer thread (historical.cpp lines 616-625).  While
chunks remain, GetRawStream hands one to the content handler, which feeds it
to the parser and returns should_continue.load(); a false return ends the
transfer (cooperatively cancelled) and EndInput follows.  With no chunks left
the transfer ends: on a transport error GetRawStream throws and the exception
leaves the thread lambda (std::terminate, EndInput skipped), otherwise
EndInput is called and the thread finishes. -/
def prodStep (inp : StreamInput) (s : Sys) : Sys :=
  if s.status = .running then
    match s.prod, s.pending with
    | .deliver, c :: rest =>
        let p := PassChunk s.parser c
        if s.should_continue then
          { s with parser := p, pending := rest }
        else
          { s with parser := EndInput p, pending := rest, prod := .done }
    | .deliver, [] =>
        if inp.tErr then { s with prod := .threw, status := .aborted }
        else { s with parser := EndInput s.parser, prod := .done }
    | _, _ => s
  else s

/-- One step of the calling thread (historical.cpp lines 626-632):
ParseMetadata, the metadata callback, record_count iterations of
ParseRecord plus the record callback (each iteration assigning
should_continue), then stream.join().  A throwing parse or callback unwinds
past the joinable std::thread, terminating the process (aborted). -/
def consStep (inp : StreamInput) (s : Sys) : Sys :=
  if s.status = .running then
    match s.cons with
    | .awaitMeta =>
      match s.parser.metaQ with
      | m :: rest =>
          if inp.metaCb m then
            { s with parser := { s.parser with metaQ := rest },
                     cons := .loop m.record_count,
                     events := s.events ++ [.metaEv m] }
          else
            { s with parser := { s.parser with metaQ := rest },
                     events := s.events ++ [.metaEv m], status := .aborted }
      | [] => if s.parser.ended then { s with status := .aborted } else s
    | .loop (n + 1) =>
      match s.parser.recQ with
      | r :: rest =>
          match inp.recCb r with
          | some kg =>
              { s with parser := { s.parser with recQ := rest },
                       should_continue := decide (kg = KeepGoing.Continue),
                       events := s.events ++ [.recEv r], cons := .loop n }
          | none =>
              { s with parser := { s.parser with recQ := rest },
                       events := s.events ++ [.recEv r], status := .aborted }
      | [] => if s.parser.ended then { s with status := .aborted } else s
    | .loop 0 => { s with cons := .joinWait }
    | .joinWait =>
      match s.prod with
      | .done => { s with status := .returned }
      | _ => s
  else s

/-- A scheduler step: true runs the producer thread, false the caller. -/
def sysStep (inp : StreamInput) (s : Sys) (who : Bool) : Sys :=
  if who then prodStep inp s else consStep inp s

def runFrom (inp : StreamInput) (s : Sys) (sched : List Bool) : Sys :=
  sched.foldl (sysStep inp) s

/-- A run of Historical::TimeseriesStream under a given interleaving. -/
def TimeseriesStreamRun (inp : StreamInput) (sched : List Bool) : Sys :=
  runFrom inp (initSys inp) sched

def recEvents (es : List Event) : List Rec :=
  es.filterMap fun e => match e with | .recEv r => some r | .metaEv _ => none

def metaEvents (es : List Event) : List Metadata :=
  es.filterMap fun e => match e with | .metaEv m => some m | .recEv _ => none

/-! ## Concrete runs used as counterexamples and witnesses -/

/-- A well-formed one-record stream that completes normally. -/
def okInput : StreamInput :=
  { chunks := [[.meta ⟨1⟩, .record ⟨7⟩]], tErr := false,
    metaCb := fun _ => true, recCb := fun _ => some .Continue }

/-- Deliver, end the transfer, then consume metadata, the record, finish the
loop and join. -/
def okSched : List Bool := [true, true, false, false, false, false]

/-- Three records in three chunks, with a record callback that always signals
stop. -/
def stopInput : StreamInput :=
  { chunks := [[.meta ⟨3⟩, .record ⟨1⟩], [.record ⟨2⟩], [.record ⟨3⟩]],
    tErr := false, metaCb := fun _ => true, recCb := fun _ => some .Stop }

/-- All three chunks are delivered before the consumer starts; the consumer
then processes every record despite the stop signalled at the first one. -/
def stopSched : List Bool :=
  [true, true, true, false, false, false, false, false, true, false]

/-- A stream whose metadata callback throws. -/
def metaThrowInput : StreamInput :=
  { chunks := [[.meta ⟨1⟩, .record ⟨5⟩]], tErr := false,
    metaCb := fun _ => false, recCb := fun _ => some .Continue }

def metaThrowSched : List Bool := [true, false]

/-- A stream whose chunked read fails with a transport error after delivering
its chunks. -/
def transportErrInput : StreamInput :=
  { chunks := [[.meta ⟨1⟩, .record ⟨5⟩]], tErr := true,
    metaCb := fun _ => true, recCb := fun _ => some .Continue }

def transportErrSched : List Bool := [true, true]

/-- Arguments exhibiting the comma-join edge case: a nonempty symbols vector
whose first element is the empty string. -/
def cexArgs : BatchSubmitJobArgs :=
  { dataset := "GLBX.MDP3", schemaStr := "trades", symbols := ["", "ES.FUT"],
    startTs := "2022-06-06", endTs := "2022-06-10", splitDurationStr := "day",
    split_size := 0, packagingStr := "none", deliveryStr := "download",
    stypeInStr := "native", stypeOutStr := "product_id", limit := 0 }

/-- A JSON object response carrying a symbols key whose value is an array of
strings. -/
def symbolsObj : Json := .obj [("symbols", .arr [.str "AAPL"])]

/-- The run invariant of the TimeseriesStream model: the pending chunks are a
suffix of the input, frames fed so far are conserved between the callback
trace and the parser queues, the event trace is one metadata invocation
followed by record invocations, and the consumer phase counts down from the
record count declared by the consumed metadata. -/
structure StreamInv (inp : StreamInput) (s : Sys) : Prop where
  conserve : ∃ fed, inp.chunks = fed ++ s.pending ∧
      metaEvents s.events ++ s.parser.metaQ = frameMetas fed.flatten ∧
      recEvents s.events ++ s.parser.recQ = frameRecs fed.flatten
  shape : s.events = [] ∨
      ∃ m₀, s.events = Event.metaEv m₀ :: (recEvents s.events).map Event.recEv
  awaitE : s.status = .running → s.cons = .awaitMeta → s.events = []
  loopC : ∀ n, s.status = .running → s.cons = .loop n →
      ∃ m₀, metaEvents s.events = [m₀] ∧
        n + (recEvents s.events).length = m₀.record_count
  joinC : s.status = .running → s.cons = .joinWait →
      ∃ m₀, metaEvents s.events = [m₀] ∧
        (recEvents s.events).length = m₀.record_count
  retC : s.status = .returned →
      ∃ m₀, metaEvents s.events = [m₀] ∧
        (recEvents s.events).length = m₀.record_count

/-! ## Theorems.  First the glue-code claims C7-C10, then the
TimeseriesStream claims C1-C6. -/

/-- C7: the claim states that BatchListJobs raises a type-mismatch error
whenever the response is not a JSON array, instead of proceeding to parse it.
The code disagrees: line 293 evaluates TypeMismatch(kEndpoint, "array", json)
without throw, so the error value is discarded; for the non-array response
null the function proceeds and returns normally with an empty job list,
whatever the per-item parser does. -/
theorem BatchListJobs_type_mismatch_not_raised {β : Type}
    (parseJob : Json → Except JsonErr β) :
    BatchListJobsHandle parseJob Json.null = .ok [] ∧ Json.null.isArr = false := by
  exact ⟨rfl, rfl⟩

/-- C8: the claim states that parsing a BatchJob from an object response with
a symbols array yields exactly the elements of the array.  The code
disagrees: ParseAt at std::vector of std::string iterates json.items() - the
whole response object - instead of symbols_json, so it reaches the symbols
array value itself and the implicit conversion to std::string throws a
nlohmann type_error. -/
theorem ParseAt_symbols_wrong_iteration :
    ParseAtStringVec "BatchListJobs" symbolsObj "symbols" = .error .typeError ∧
    (Json.arr [.str "AAPL"]).isArr = true := by
  exact ⟨rfl, rfl⟩

theorem commaSeparated_cons (s t : String) (rest : List String) :
    commaSeparated (s :: t :: rest) = s ++ "," ++ commaSeparated (t :: rest) := rfl

theorem append_comma_append_ne_empty (a b : String) : a ++ "," ++ b ≠ "" := by
  intro h
  have hd : (a ++ "," ++ b).data = ("" : String).data := by rw [h]
  have : a.data ++ [','] ++ b.data = [] := hd
  simp at this

theorem foldl_joinStep (xs : List String) :
    ∀ acc, acc ≠ "" → xs.foldl joinStep acc = commaSeparated (acc :: xs) := by
  induction xs with
  | nil => intro acc _; rfl
  | cons y ys ih =>
      intro acc hacc
      have hstep : joinStep acc y = acc ++ "," ++ y := by
        simp [joinStep, hacc]
      have hne : acc ++ "," ++ y ≠ "" := append_comma_append_ne_empty acc y
      calc (y :: ys).foldl joinStep acc = ys.foldl joinStep (joinStep acc y) := rfl
        _ = ys.foldl joinStep (acc ++ "," ++ y) := by rw [hstep]
        _ = commaSeparated ((acc ++ "," ++ y) :: ys) := ih _ hne
        _ = commaSeparated (acc :: y :: ys) := by
              cases ys with
              | nil => rfl
              | cons z zs => simp [commaSeparated_cons, String.append_assoc]

theorem commaJoin_eq_commaSeparated (xs : List String) :
    commaJoin xs = commaSeparated (xs.dropWhile (· == "")) := by
  induction xs with
  | nil => rfl
  | cons x xs ih =>
      have hhead : (x :: xs).foldl joinStep "" = xs.foldl joinStep x := by
        simp [joinStep]
      by_cases hx : x = ""
      · subst hx
        have : commaJoin ("" :: xs) = commaJoin xs := by
          simp [commaJoin, hhead]
        rw [this, ih]
        simp [List.dropWhile]
      · have hxb : (x == "") = false := by simp [hx]
        have hdrop : (x :: xs).dropWhile (· == "") = x :: xs := by
          simp [List.dropWhile, hxb]
        rw [hdrop]
        calc commaJoin (x :: xs) = xs.foldl joinStep x := hhead
          _ = commaSeparated (x :: xs) := foldl_joinStep xs x hx

theorem mem_SetIfPositive (ps : Params) (k₀ k v : String) (n : Nat) :
    (k, v) ∈ SetIfPositive ps k₀ n ↔ (k, v) ∈ ps ∨ (n ≠ 0 ∧ k = k₀ ∧ v = toString n) := by
  unfold SetIfPositive
  by_cases h : n > 0
  · have hne : n ≠ 0 := by omega
    simp [h, Prod.ext_iff, hne]
  · have hz : n = 0 := by omega
    simp [h, hz]

theorem mem_SetIfNotEmptyVec (ps : Params) (k₀ k v : String) (xs : List String) :
    (k, v) ∈ SetIfNotEmptyVec ps k₀ xs ↔
      (k, v) ∈ ps ∨ (xs ≠ [] ∧ k = k₀ ∧ v = commaJoin xs) := by
  unfold SetIfNotEmptyVec
  by_cases h : xs = []
  · simp [h]
  · simp [h, Prod.ext_iff]

/-- C9 counterexample: the claim says a nonempty symbols vector is sent as a
single comma-separated value preserving input order.  For the nonempty vector
consisting of an empty string followed by "ES.FUT" the comma-separated join
is ",ES.FUT", yet the request carries "ES.FUT": the accumulate seed makes the
join drop leading empty elements. -/
theorem BatchSubmitJob_comma_join_counterexample :
    ("symbols", "ES.FUT") ∈ BatchSubmitJobParams cexArgs ∧
    ("symbols", commaSeparated ["", "ES.FUT"]) ∉ BatchSubmitJobParams cexArgs ∧
    commaSeparated ["", "ES.FUT"] = ",ES.FUT" ∧
    (["", "ES.FUT"] : List String) ≠ [] := by
  refine ⟨?_, ?_, rfl, by decide⟩ <;> decide

/-- C9 amended: an optional numeric parameter equal to 0 (split_size, limit)
is omitted and a nonzero one is included with its decimal image; an optional
empty string or empty vector is omitted; a nonempty vector is sent as one
value, namely the comma-separated join, in input order, of its elements after
dropping leading empty strings (so any vector with a nonempty first element
is sent exactly comma-separated in order). -/
theorem BatchSubmitJob_optional_params_amended (a : BatchSubmitJobArgs) :
    (∀ v, ("split_size", v) ∈ BatchSubmitJobParams a ↔
        a.split_size ≠ 0 ∧ v = toString a.split_size) ∧
    (∀ v, ("limit", v) ∈ BatchSubmitJobParams a ↔
        a.limit ≠ 0 ∧ v = toString a.limit) ∧
    (∀ v, ("symbols", v) ∈ BatchSubmitJobParams a ↔
        a.symbols ≠ [] ∧ v = commaSeparated (a.symbols.dropWhile (· == ""))) ∧
    (∀ ps k v, v ≠ "" → (k, v) ∈ SetIfNotEmpty ps k v) ∧
    (∀ ps k, SetIfNotEmpty ps k "" = ps) := by
  refine ⟨?_, ?_, ?_, ?_, ?_⟩
  · intro v
    simp only [BatchSubmitJobParams, mem_SetIfNotEmptyVec, mem_SetIfPositive]
    simp [Prod.ext_iff]
  · intro v
    simp only [BatchSubmitJobParams, mem_SetIfNotEmptyVec, mem_SetIfPositive]
    simp [Prod.ext_iff]
  · intro v
    simp only [BatchSubmitJobParams, mem_SetIfNotEmptyVec, mem_SetIfPositive]
    simp [Prod.ext_iff, commaJoin_eq_commaSeparated]
  · intro ps k v hv
    simp [SetIfNotEmpty, hv]
  · intro ps k
    simp [SetIfNotEmpty]

/-- C9 witness: the amended characterisation at concrete arguments. -/
theorem BatchSubmitJob_optional_params_amended_witness :
    ("symbols", "ES.FUT") ∈ BatchSubmitJobParams cexArgs ∧
    (∀ v, ¬ ("limit", v) ∈ BatchSubmitJobParams cexArgs) := by
  constructor
  · exact ((BatchSubmitJob_optional_params_amended cexArgs).2.2.1 "ES.FUT").2
      ⟨by decide, by decide⟩
  · intro v hv
    have := ((BatchSubmitJob_optional_params_amended cexArgs).2.1 v).1 hv
    exact this.1 (by decide)

/-- C10: Build throws exactly when the builder holds no non-empty key;
keyFromEnv throws exactly when DATABENTO_API_KEY is unset; a successful Build
yields a client whose key getter returns the key that was set and whose
gateway is the one stored by the builder, which defaults to Nearest. -/
theorem HistoricalBuilder_contract (b : HistoricalBuilder) (env : Option String)
    (k : String) (g : HistoricalGateway) :
    ((∃ e, b.Build = .error e) ↔ b.key_ = "") ∧
    ((∃ e, b.keyFromEnv env = .error e) ↔ env = none) ∧
    (∀ h, b.Build = .ok h → h.key_ = b.key_ ∧ h.gateway_ = b.gateway_) ∧
    (b.key k).key_ = k ∧
    (b.gateway g).gateway_ = g ∧
    ({} : HistoricalBuilder).gateway_ = HistoricalGateway.Nearest := by
  refine ⟨?_, ?_, ?_, rfl, rfl, rfl⟩
  · unfold HistoricalBuilder.Build
    by_cases hk : b.key_ = "" <;> simp [hk]
  · cases env <;> simp [HistoricalBuilder.keyFromEnv]
  · intro h hok
    unfold HistoricalBuilder.Build at hok
    by_cases hk : b.key_ = "" <;> simp [hk] at hok
    exact ⟨by rw [← hok], by rw [← hok]⟩

/-- C10 witness: the contract applied to a concrete builder. -/
theorem HistoricalBuilder_contract_witness :
    Historical.key_ ⟨"k1", HistoricalGateway.Nearest⟩ = "k1" :=
  ((HistoricalBuilder_contract (HistoricalBuilder.key {} "k1") (some "k1") "k1"
      HistoricalGateway.Nearest).2.2.1 ⟨"k1", HistoricalGateway.Nearest⟩
      (by simp [HistoricalBuilder.Build, HistoricalBuilder.key])).1

/-! ## Bookkeeping lemmas for the stream model -/

theorem recEvents_append (es fs : List Event) :
    recEvents (es ++ fs) = recEvents es ++ recEvents fs := by
  simp [recEvents]

theorem metaEvents_append (es fs : List Event) :
    metaEvents (es ++ fs) = metaEvents es ++ metaEvents fs := by
  simp [metaEvents]

theorem recEvents_metaEv (m : Metadata) : recEvents [Event.metaEv m] = [] := rfl

theorem recEvents_recEv (r : Rec) : recEvents [Event.recEv r] = [r] := rfl

theorem metaEvents_metaEv (m : Metadata) : metaEvents [Event.metaEv m] = [m] := rfl

theorem metaEvents_recEv (r : Rec) : metaEvents [Event.recEv r] = [] := rfl

theorem frameMetas_append (a b : List Frame) :
    frameMetas (a ++ b) = frameMetas a ++ frameMetas b := by
  simp [frameMetas]

theorem frameRecs_append (a b : List Frame) :
    frameRecs (a ++ b) = frameRecs a ++ frameRecs b := by
  simp [frameRecs]

theorem frameMetas_cons_meta (m : Metadata) (l : List Frame) :
    frameMetas (Frame.meta m :: l) = m :: frameMetas l := by
  simp [frameMetas, List.filterMap_cons]

theorem frameRecs_cons_meta (m : Metadata) (l : List Frame) :
    frameRecs (Frame.meta m :: l) = frameRecs l := by
  simp [frameRecs, List.filterMap_cons]

theorem frameMetas_cons_record (r : Rec) (l : List Frame) :
    frameMetas (Frame.record r :: l) = frameMetas l := by
  simp [frameMetas, List.filterMap_cons]

theorem frameRecs_cons_record (r : Rec) (l : List Frame) :
    frameRecs (Frame.record r :: l) = r :: frameRecs l := by
  simp [frameRecs, List.filterMap_cons]

theorem frameMetas_map_record (rs : List Rec) :
    frameMetas (rs.map Frame.record) = [] := by
  induction rs with
  | nil => rfl
  | cons r rs ih => rw [List.map_cons, frameMetas_cons_record, ih]

theorem frameRecs_map_record (rs : List Rec) :
    frameRecs (rs.map Frame.record) = rs := by
  induction rs with
  | nil => rfl
  | cons r rs ih => rw [List.map_cons, frameRecs_cons_record, ih]

theorem runFrom_cons (inp : StreamInput) (s : Sys) (w : Bool) (ws : List Bool) :
    runFrom inp s (w :: ws) = runFrom inp (sysStep inp s w) ws := rfl

theorem runFrom_append (inp : StreamInput) (s : Sys) (a b : List Bool) :
    runFrom inp s (a ++ b) = runFrom inp (runFrom inp s a) b := by
  simp [runFrom, List.foldl_append]

theorem runFrom_preserve (inp : StreamInput) (P : Sys → Prop)
    (hstep : ∀ s who, P s → P (sysStep inp s who)) :
    ∀ sched s, P s → P (runFrom inp s sched) := by
  intro sched
  induction sched with
  | nil => intro s h; exact h
  | cons w ws ih => intro s h; exact ih _ (hstep s w h)

theorem prodStep_not_running (inp : StreamInput) (s : Sys)
    (h : ¬ s.status = .running) : prodStep inp s = s := by
  simp [prodStep, h]

theorem consStep_not_running (inp : StreamInput) (s : Sys)
    (h : ¬ s.status = .running) : consStep inp s = s := by
  simp [consStep, h]

/-- The consumer step never touches the producer phase, the pending chunk
list, or the end-of-input flag. -/
theorem consStep_frame (inp : StreamInput) (s : Sys) :
    (consStep inp s).prod = s.prod ∧ (consStep inp s).pending = s.pending ∧
    (consStep inp s).parser.ended = s.parser.ended := by
  unfold consStep
  repeat' split
  all_goals exact ⟨rfl, rfl, rfl⟩

/-- The producer step never touches the stop flag, the consumer phase, or the
event trace. -/
theorem prodStep_frame (inp : StreamInput) (s : Sys) :
    (prodStep inp s).should_continue = s.should_continue ∧
    (prodStep inp s).cons = s.cons ∧ (prodStep inp s).events = s.events := by
  unfold prodStep
  repeat' split
  all_goals exact ⟨rfl, rfl, rfl⟩

theorem StreamInv_prodStep (inp : StreamInput) (s : Sys) (h : StreamInv inp s) :
    StreamInv inp (prodStep inp s) := by
  by_cases hrun : s.status = .running
  case neg => rw [prodStep_not_running inp s hrun]; exact h
  case pos =>
  cases hp : s.prod with
  | done =>
    have hs : prodStep inp s = s := by simp [prodStep, hrun, hp]
    rw [hs]; exact h
  | threw =>
    have hs : prodStep inp s = s := by simp [prodStep, hrun, hp]
    rw [hs]; exact h
  | deliver =>
  cases hpend : s.pending with
  | nil =>
    by_cases ht : inp.tErr
    · have hstep : prodStep inp s = { s with prod := .threw, status := .aborted } := by
        simp [prodStep, hrun, hp, hpend, ht]
      rw [hstep]
      refine ⟨?_, h.shape, ?_, ?_, ?_, ?_⟩
      · obtain ⟨fed, hfed, hmq, hrq⟩ := h.conserve
        exact ⟨fed, by rw [hfed, hpend], hmq, hrq⟩
      · intro hst; simp at hst
      · intro n hst; simp at hst
      · intro hst; simp at hst
      · intro hst; simp at hst
    · have hstep : prodStep inp s =
          { s with parser := EndInput s.parser, prod := .done } := by
        simp [prodStep, hrun, hp, hpend, ht]
      rw [hstep]
      refine ⟨?_, h.shape, h.awaitE, h.loopC, h.joinC, h.retC⟩
      obtain ⟨fed, hfed, hmq, hrq⟩ := h.conserve
      exact ⟨fed, by rw [hfed, hpend], hmq, hrq⟩
  | cons c rest =>
    obtain ⟨fed, hfed, hmq, hrq⟩ := h.conserve
    have hchunks : inp.chunks = (fed ++ [c]) ++ rest := by
      rw [hfed, hpend]; simp
    have hjoin : (fed ++ [c]).flatten = fed.flatten ++ c := by simp
    have hmq' : metaEvents s.events ++ (s.parser.metaQ ++ frameMetas c) =
        frameMetas ((fed ++ [c]).flatten) := by
      rw [hjoin, frameMetas_append, ← List.append_assoc, hmq]
    have hrq' : recEvents s.events ++ (s.parser.recQ ++ frameRecs c) =
        frameRecs ((fed ++ [c]).flatten) := by
      rw [hjoin, frameRecs_append, ← List.append_assoc, hrq]
    by_cases hsc : s.should_continue = true
    · have hstep : prodStep inp s =
          { s with parser := PassChunk s.parser c, pending := rest } := by
        simp [prodStep, hrun, hp, hpend, hsc]
      rw [hstep]
      exact ⟨⟨fed ++ [c], hchunks, hmq', hrq'⟩, h.shape, h.awaitE, h.loopC,
        h.joinC, h.retC⟩
    · have hstep : prodStep inp s =
          { s with parser := EndInput (PassChunk s.parser c), pending := rest,
                   prod := .done } := by
        simp [prodStep, hrun, hp, hpend, hsc]
      rw [hstep]
      exact ⟨⟨fed ++ [c], hchunks, hmq', hrq'⟩, h.shape, h.awaitE, h.loopC,
        h.joinC, h.retC⟩

theorem StreamInv_consStep (inp : StreamInput) (s : Sys) (h : StreamInv inp s) :
    StreamInv inp (consStep inp s) := by
  by_cases hrun : s.status = .running
  case neg => rw [consStep_not_running inp s hrun]; exact h
  case pos =>
  cases hcons : s.cons with
  | awaitMeta =>
    cases hmQ : s.parser.metaQ with
    | nil =>
      by_cases hend : s.parser.ended = true
      · have hstep : consStep inp s = { s with status := .aborted } := by
          simp [consStep, hrun, hcons, hmQ, hend]
        rw [hstep]
        refine ⟨h.conserve, h.shape, ?_, ?_, ?_, ?_⟩
        · intro hst; simp at hst
        · intro n hst; simp at hst
        · intro hst; simp at hst
        · intro hst; simp at hst
      · have hstep : consStep inp s = s := by
          simp [consStep, hrun, hcons, hmQ, hend]
        rw [hstep]; exact h
    | cons m mrest =>
      have hev : s.events = [] := h.awaitE hrun hcons
      obtain ⟨fed, hfed, hmq, hrq⟩ := h.conserve
      have hmq2 : ([m] ++ mrest : List Metadata) = frameMetas fed.flatten := by
        rw [← hmq, hev, hmQ]; rfl
      have hrq2 : recEvents (s.events ++ [Event.metaEv m]) ++ s.parser.recQ =
          frameRecs fed.flatten := by
        rw [recEvents_append, recEvents_metaEv, List.append_nil, hrq]
      have hmev : metaEvents (s.events ++ [Event.metaEv m]) = [m] := by
        rw [metaEvents_append, hev]; rfl
      have hrev : recEvents (s.events ++ [Event.metaEv m]) = [] := by
        rw [recEvents_append, hev]; rfl
      have hshape : s.events ++ [Event.metaEv m] =
          Event.metaEv m :: (recEvents (s.events ++ [Event.metaEv m])).map Event.recEv := by
        rw [hrev, hev]; rfl
      by_cases hcb : inp.metaCb m = true
      · have hstep : consStep inp s =
            { s with parser := { s.parser with metaQ := mrest },
                     cons := .loop m.record_count,
                     events := s.events ++ [.metaEv m] } := by
          simp [consStep, hrun, hcons, hmQ, hcb]
        rw [hstep]
        refine ⟨⟨fed, hfed, ?_, hrq2⟩, Or.inr ⟨m, hshape⟩, ?_, ?_, ?_, ?_⟩
        · show metaEvents (s.events ++ [Event.metaEv m]) ++ mrest = frameMetas fed.flatten
          rw [hmev, ← hmq2]
        · intro _ hc; simp at hc
        · intro n _ hc
          refine ⟨m, hmev, ?_⟩
          have hn : n = m.record_count := by simp at hc; omega
          rw [hrev, hn]
          simp
        · intro _ hc; simp at hc
        · intro hst; exact absurd (hrun.symm.trans hst) (by decide)
      · have hstep : consStep inp s =
            { s with parser := { s.parser with metaQ := mrest },
                     events := s.events ++ [.metaEv m], status := .aborted } := by
          simp [consStep, hrun, hcons, hmQ, hcb]
        rw [hstep]
        refine ⟨⟨fed, hfed, ?_, hrq2⟩, Or.inr ⟨m, hshape⟩, ?_, ?_, ?_, ?_⟩
        · show metaEvents (s.events ++ [Event.metaEv m]) ++ mrest = frameMetas fed.flatten
          rw [hmev, ← hmq2]
        · intro hst; simp at hst
        · intro n hst; simp at hst
        · intro hst; simp at hst
        · intro hst; simp at hst
  | joinWait =>
    cases hp : s.prod with
    | done =>
      have hstep : consStep inp s = { s with status := .returned } := by
        simp [consStep, hrun, hcons, hp]
      rw [hstep]
      refine ⟨h.conserve, h.shape, ?_, ?_, ?_, ?_⟩
      · intro hst; simp at hst
      · intro n hst; simp at hst
      · intro hst; simp at hst
      · intro _; exact h.joinC hrun hcons
    | deliver =>
      have hstep : consStep inp s = s := by simp [consStep, hrun, hcons, hp]
      rw [hstep]; exact h
    | threw =>
      have hstep : consStep inp s = s := by simp [consStep, hrun, hcons, hp]
      rw [hstep]; exact h
  | loop n =>
    cases n with
    | zero =>
      have hstep : consStep inp s = { s with cons := .joinWait } := by
        simp [consStep, hrun, hcons]
      rw [hstep]
      obtain ⟨m₀, hm, hcnt⟩ := h.loopC 0 hrun hcons
      refine ⟨h.conserve, h.shape, ?_, ?_, ?_, ?_⟩
      · intro _ hc; simp at hc
      · intro k _ hc; simp at hc
      · intro _ _; exact ⟨m₀, hm, by simpa using hcnt⟩
      · intro hst; exact absurd (hrun.symm.trans hst) (by decide)
    | succ k =>
      obtain ⟨m₀, hm, hcnt⟩ := h.loopC (k + 1) hrun hcons
      have hnonempty : s.events ≠ [] := by
        intro hemp
        rw [hemp] at hm
        simp [metaEvents] at hm
      rcases h.shape with hemp | ⟨m₁, hsh⟩
      · exact absurd hemp hnonempty
      cases hrQ : s.parser.recQ with
      | nil =>
        by_cases hend : s.parser.ended = true
        · have hstep : consStep inp s = { s with status := .aborted } := by
            simp [consStep, hrun, hcons, hrQ, hend]
          rw [hstep]
          refine ⟨h.conserve, h.shape, ?_, ?_, ?_, ?_⟩
          · intro hst; simp at hst
          · intro n hst; simp at hst
          · intro hst; simp at hst
          · intro hst; simp at hst
        · have hstep : consStep inp s = s := by
            simp [consStep, hrun, hcons, hrQ, hend]
          rw [hstep]; exact h
      | cons r rrest =>
        obtain ⟨fed, hfed, hmq, hrq⟩ := h.conserve
        have hmq2 : metaEvents (s.events ++ [Event.recEv r]) ++ s.parser.metaQ =
            frameMetas fed.flatten := by
          rw [metaEvents_append, metaEvents_recEv, List.append_nil, hmq]
        have hrq2 : recEvents (s.events ++ [Event.recEv r]) ++ rrest =
            frameRecs fed.flatten := by
          rw [recEvents_append, recEvents_recEv, ← hrq, hrQ]
          simp
        have hmev : metaEvents (s.events ++ [Event.recEv r]) = [m₀] := by
          rw [metaEvents_append, metaEvents_recEv, List.append_nil, hm]
        have hrevlen : (recEvents (s.events ++ [Event.recEv r])).length =
            (recEvents s.events).length + 1 := by
          rw [recEvents_append, recEvents_recEv]
          simp
        have hshape : s.events ++ [Event.recEv r] =
            Event.metaEv m₁ ::
              (recEvents (s.events ++ [Event.recEv r])).map Event.recEv := by
          conv_lhs => rw [hsh]
          rw [recEvents_append, recEvents_recEv, List.map_append]
          rfl
        cases hcb : inp.recCb r with
        | some kg =>
          have hstep : consStep inp s =
              { s with parser := { s.parser with recQ := rrest },
                       should_continue := decide (kg = KeepGoing.Continue),
                       events := s.events ++ [.recEv r], cons := .loop k } := by
            simp [consStep, hrun, hcons, hrQ, hcb]
          rw [hstep]
          refine ⟨⟨fed, hfed, hmq2, hrq2⟩, Or.inr ⟨m₁, hshape⟩, ?_, ?_, ?_, ?_⟩
          · intro _ hc; simp at hc
          · intro n' _ hc
            have hk : n' = k := by simp at hc; omega
            subst hk
            exact ⟨m₀, hmev, by rw [hrevlen]; omega⟩
          · intro _ hc; simp at hc
          · intro hst; exact absurd (hrun.symm.trans hst) (by decide)
        | none =>
          have hstep : consStep inp s =
              { s with parser := { s.parser with recQ := rrest },
                       events := s.events ++ [.recEv r], status := .aborted } := by
            simp [consStep, hrun, hcons, hrQ, hcb]
          rw [hstep]
          refine ⟨⟨fed, hfed, hmq2, hrq2⟩, Or.inr ⟨m₁, hshape⟩, ?_, ?_, ?_, ?_⟩
          · intro hst; simp at hst
          · intro n hst; simp at hst
          · intro hst; simp at hst
          · intro hst; simp at hst

theorem StreamInv_step (inp : StreamInput) (s : Sys) (who : Bool)
    (h : StreamInv inp s) : StreamInv inp (sysStep inp s who) := by
  cases who
  · exact StreamInv_consStep inp s h
  · exact StreamInv_prodStep inp s h

theorem StreamInv_init (inp : StreamInput) : StreamInv inp (initSys inp) := by
  refine ⟨⟨[], rfl, rfl, rfl⟩, Or.inl rfl, fun _ _ => rfl, ?_, ?_, ?_⟩
  · intro n _ hc; simp [initSys] at hc
  · intro _ hc; simp [initSys] at hc
  · intro hst; simp [initSys] at hst

theorem StreamInv_run (inp : StreamInput) (sched : List Bool) :
    StreamInv inp (TimeseriesStreamRun inp sched) :=
  runFrom_preserve inp (StreamInv inp) (fun s who => StreamInv_step inp s who)
    sched (initSys inp) (StreamInv_init inp)

theorem take_len_append {α : Type} (l₁ l₂ : List α) :
    (l₁ ++ l₂).take l₁.length = l₁ := by
  induction l₁ with
  | nil => rfl
  | cons a l ih => simp [ih]

/-- C1: for every historical stream whose decoded metadata declares
record_count = K, every run of TimeseriesStream that returns normally has
invoked the record callback exactly K times, once per decoded record, in
arrival order (the trace equals the first K decoded records), before
returning. -/
theorem TimeseriesStream_record_count_fidelity (inp : StreamInput)
    (m : Metadata) (rs : List Rec) (sched : List Bool)
    (hwf : inp.chunks.flatten = Frame.meta m :: rs.map Frame.record)
    (hret : (TimeseriesStreamRun inp sched).status = .returned) :
    recEvents (TimeseriesStreamRun inp sched).events = rs.take m.record_count ∧
    (recEvents (TimeseriesStreamRun inp sched).events).length = m.record_count := by
  have hinv := StreamInv_run inp sched
  obtain ⟨fed, hfed, hmq, hrq⟩ := hinv.conserve
  obtain ⟨m₀, hm₀, hlen⟩ := hinv.retC hret
  have hj : fed.flatten ++ (TimeseriesStreamRun inp sched).pending.flatten =
      Frame.meta m :: rs.map Frame.record := by
    rw [← List.flatten_append, ← hfed, hwf]
  have hMetaAll : frameMetas fed.flatten ++
      frameMetas ((TimeseriesStreamRun inp sched).pending.flatten) = [m] := by
    rw [← frameMetas_append, hj, frameMetas_cons_meta, frameMetas_map_record]
  have hRecAll : frameRecs fed.flatten ++
      frameRecs ((TimeseriesStreamRun inp sched).pending.flatten) = rs := by
    rw [← frameRecs_append, hj, frameRecs_cons_meta, frameRecs_map_record]
  have h1 : (metaEvents (TimeseriesStreamRun inp sched).events ++
      (TimeseriesStreamRun inp sched).parser.metaQ) ++
      frameMetas ((TimeseriesStreamRun inp sched).pending.flatten) = [m] := by
    rw [hmq]; exact hMetaAll
  rw [hm₀] at h1
  simp only [List.cons_append, List.nil_append, List.cons.injEq] at h1
  have hm : m₀ = m := h1.1
  have h2 : recEvents (TimeseriesStreamRun inp sched).events ++
      ((TimeseriesStreamRun inp sched).parser.recQ ++
        frameRecs ((TimeseriesStreamRun inp sched).pending.flatten)) = rs := by
    rw [← List.append_assoc, hrq]; exact hRecAll
  have htake : rs.take (recEvents (TimeseriesStreamRun inp sched).events).length =
      recEvents (TimeseriesStreamRun inp sched).events := by
    rw [← h2]; exact take_len_append _ _
  constructor
  · rw [← hm, ← hlen, htake]
  · rw [hlen, hm]

/-- C1 witness: a concrete one-record stream run to completion invokes the
record callback exactly once. -/
theorem TimeseriesStream_record_count_fidelity_witness :
    recEvents (TimeseriesStreamRun okInput okSched).events = [⟨7⟩] ∧
    (recEvents (TimeseriesStreamRun okInput okSched).events).length = 1 :=
  TimeseriesStream_record_count_fidelity okInput ⟨1⟩ [⟨7⟩] okSched
    (by decide) (by decide)

/-- C6: in every run of TimeseriesStream the callback trace is either empty
or one metadata invocation followed only by record invocations - so the
metadata callback is invoked at most once and before any record callback -
and every run that returns normally has invoked it exactly once. -/
theorem TimeseriesStream_metadata_callback_once (inp : StreamInput)
    (sched : List Bool) :
    ((TimeseriesStreamRun inp sched).events = [] ∨
      ∃ m₀, (TimeseriesStreamRun inp sched).events =
        Event.metaEv m₀ ::
          (recEvents (TimeseriesStreamRun inp sched).events).map Event.recEv) ∧
    ((TimeseriesStreamRun inp sched).status = .returned →
      ∃ m₀, (TimeseriesStreamRun inp sched).events =
        Event.metaEv m₀ ::
          (recEvents (TimeseriesStreamRun inp sched).events).map Event.recEv) := by
  have hinv := StreamInv_run inp sched
  refine ⟨hinv.shape, fun hret => ?_⟩
  obtain ⟨m₀, hm₀, _⟩ := hinv.retC hret
  rcases hinv.shape with hemp | hsh
  · rw [hemp] at hm₀; simp [metaEvents] at hm₀
  · exact hsh

/-- C6 witness: the completed concrete run has exactly one metadata event,
in front of the record events. -/
theorem TimeseriesStream_metadata_callback_once_witness :
    ∃ m₀, (TimeseriesStreamRun okInput okSched).events =
      Event.metaEv m₀ ::
        (recEvents (TimeseriesStreamRun okInput okSched).events).map Event.recEv :=
  (TimeseriesStream_metadata_callback_once okInput okSched).2 (by decide)

theorem consStep_returned_of (inp : StreamInput) (s : Sys)
    (h : (consStep inp s).status = .returned) :
    s.status = .returned ∨ s.prod = .done := by
  by_cases hrun : s.status = .running
  case neg => rw [consStep_not_running inp s hrun] at h; exact Or.inl h
  case pos =>
  cases hcons : s.cons with
  | awaitMeta =>
    cases hmQ : s.parser.metaQ with
    | nil =>
      by_cases hend : s.parser.ended = true
      · rw [show consStep inp s = { s with status := .aborted } from by
          simp [consStep, hrun, hcons, hmQ, hend]] at h
        simp at h
      · rw [show consStep inp s = s from by
          simp [consStep, hrun, hcons, hmQ, hend]] at h
        exact Or.inl h
    | cons mm mrest =>
      by_cases hcb : inp.metaCb mm = true
      · rw [show consStep inp s =
            { s with parser := { s.parser with metaQ := mrest },
                     cons := .loop mm.record_count,
                     events := s.events ++ [.metaEv mm] } from by
          simp [consStep, hrun, hcons, hmQ, hcb]] at h
        simp [hrun] at h
      · rw [show consStep inp s =
            { s with parser := { s.parser with metaQ := mrest },
                     events := s.events ++ [.metaEv mm],
                     status := .aborted } from by
          simp [consStep, hrun, hcons, hmQ, hcb]] at h
        simp at h
  | joinWait =>
    cases hp : s.prod with
    | done => exact Or.inr rfl
    | deliver =>
      rw [show consStep inp s = s from by simp [consStep, hrun, hcons, hp]] at h
      exact Or.inl h
    | threw =>
      rw [show consStep inp s = s from by simp [consStep, hrun, hcons, hp]] at h
      exact Or.inl h
  | loop n =>
    cases n with
    | zero =>
      rw [show consStep inp s = { s with cons := .joinWait } from by
        simp [consStep, hrun, hcons]] at h
      simp [hrun] at h
    | succ k =>
      cases hrQ : s.parser.recQ with
      | nil =>
        by_cases hend : s.parser.ended = true
        · rw [show consStep inp s = { s with status := .aborted } from by
            simp [consStep, hrun, hcons, hrQ, hend]] at h
          simp at h
        · rw [show consStep inp s = s from by
            simp [consStep, hrun, hcons, hrQ, hend]] at h
          exact Or.inl h
      | cons r rrest =>
        cases hcb : inp.recCb r with
        | some kg =>
          rw [show consStep inp s =
              { s with parser := { s.parser with recQ := rrest },
                       should_continue := decide (kg = KeepGoing.Continue),
                       events := s.events ++ [.recEv r], cons := .loop k } from by
            simp [consStep, hrun, hcons, hrQ, hcb]] at h
          simp [hrun] at h
        | none =>
          rw [show consStep inp s =
              { s with parser := { s.parser with recQ := rrest },
                       events := s.events ++ [.recEv r],
                       status := .aborted } from by
            simp [consStep, hrun, hcons, hrQ, hcb]] at h
          simp at h

/-- C3 amended: on its normal return paths (completion, and completion after
a stop) TimeseriesStream has joined the producer thread before returning -
every run with returned status has a finished producer. -/
theorem TimeseriesStream_join_on_normal_return (inp : StreamInput)
    (sched : List Bool) :
    (TimeseriesStreamRun inp sched).status = .returned →
    (TimeseriesStreamRun inp sched).prod = .done := by
  refine runFrom_preserve inp (fun s => s.status = .returned → s.prod = .done)
    ?_ sched (initSys inp) (fun hst => by simp [initSys] at hst)
  intro s who hP
  cases who
  · intro hret
    have hframe := consStep_frame inp s
    rcases consStep_returned_of inp s hret with hs | hp
    · have hns : ¬ s.status = .running := by simp [hs]
      show (consStep inp s).prod = .done
      rw [consStep_not_running inp s hns]
      exact hP hs
    · show (consStep inp s).prod = .done
      rw [hframe.1]
      exact hp
  · intro hret
    replace hret : (prodStep inp s).status = RunStatus.returned := hret
    show (prodStep inp s).prod = .done
    by_cases hrun : s.status = .running
    · cases hp : s.prod with
      | done =>
        rw [show prodStep inp s = s from by simp [prodStep, hrun, hp]]
        exact hp
      | threw =>
        rw [show prodStep inp s = s from by simp [prodStep, hrun, hp]] at hret
        simp [hrun] at hret
      | deliver =>
        cases hpend : s.pending with
        | nil =>
          by_cases ht : inp.tErr
          · rw [show prodStep inp s = { s with prod := .threw, status := .aborted }
                from by simp [prodStep, hrun, hp, hpend, ht]] at hret
            simp at hret
          · rw [show prodStep inp s =
                { s with parser := EndInput s.parser, prod := .done }
                from by simp [prodStep, hrun, hp, hpend, ht]]
        | cons c rest =>
          by_cases hsc : s.should_continue = true
          · rw [show prodStep inp s =
                { s with parser := PassChunk s.parser c, pending := rest }
                from by simp [prodStep, hrun, hp, hpend, hsc]] at hret
            simp [hrun] at hret
          · rw [show prodStep inp s =
                { s with parser := EndInput (PassChunk s.parser c),
                         pending := rest, prod := .done }
                from by simp [prodStep, hrun, hp, hpend, hsc]]
    · rw [prodStep_not_running inp s hrun] at hret ⊢
      exact hP hret

/-- C3 amended witness: the concrete completed run has a joined producer. -/
theorem TimeseriesStream_join_on_normal_return_witness :
    (TimeseriesStreamRun okInput okSched).prod = ProdPhase.done :=
  TimeseriesStream_join_on_normal_return okInput okSched (by decide)

/-- C3 counterexample: the claim says the coordinator joins the producer on
every exit path including exceptional ones.  In the run below the metadata
callback throws while the producer is still delivering: the coordinator
leaves with the process terminated (joinable std::thread destroyed during
unwinding), the producer never joined, and nothing is returned to the
caller. -/
theorem TimeseriesStream_join_missing_on_exception_counterexample :
    (TimeseriesStreamRun metaThrowInput metaThrowSched).status = .aborted ∧
    (TimeseriesStreamRun metaThrowInput metaThrowSched).prod = .deliver ∧
    (TimeseriesStreamRun metaThrowInput metaThrowSched).events =
      [.metaEv ⟨1⟩] := by
  decide

/-- C4 amended: a transport error thrown by the producer-side chunked read is
never re-raised at the join; the exception escapes the thread lambda and the
process terminates - every run whose producer threw is aborted. -/
theorem TimeseriesStream_producer_throw_aborts_process (inp : StreamInput)
    (sched : List Bool) :
    (TimeseriesStreamRun inp sched).prod = .threw →
    (TimeseriesStreamRun inp sched).status = .aborted := by
  refine runFrom_preserve inp (fun s => s.prod = .threw → s.status = .aborted)
    ?_ sched (initSys inp) (fun h => by simp [initSys] at h)
  intro s who hP
  cases who
  · intro hth
    have hframe := consStep_frame inp s
    have hsp : s.prod = .threw := by rw [← hframe.1]; exact hth
    have hab : s.status = .aborted := hP hsp
    have hns : ¬ s.status = .running := by simp [hab]
    show (consStep inp s).status = .aborted
    rw [consStep_not_running inp s hns]
    exact hab
  · intro hth
    replace hth : (prodStep inp s).prod = ProdPhase.threw := hth
    show (prodStep inp s).status = .aborted
    by_cases hrun : s.status = .running
    · cases hp : s.prod with
      | done =>
        rw [show prodStep inp s = s from by simp [prodStep, hrun, hp]] at hth
        rw [hp] at hth
        simp at hth
      | threw => exact absurd hrun (by simp [hP hp])
      | deliver =>
        cases hpend : s.pending with
        | nil =>
          by_cases ht : inp.tErr
          · rw [show prodStep inp s = { s with prod := .threw, status := .aborted }
                from by simp [prodStep, hrun, hp, hpend, ht]]
          · rw [show prodStep inp s =
                { s with parser := EndInput s.parser, prod := .done }
                from by simp [prodStep, hrun, hp, hpend, ht]] at hth
            simp at hth
        | cons c rest =>
          by_cases hsc : s.should_continue = true
          · rw [show prodStep inp s =
                { s with parser := PassChunk s.parser c, pending := rest }
                from by simp [prodStep, hrun, hp, hpend, hsc]] at hth
            simp [hp] at hth
          · rw [show prodStep inp s =
                { s with parser := EndInput (PassChunk s.parser c),
                         pending := rest, prod := .done }
                from by simp [prodStep, hrun, hp, hpend, hsc]] at hth
            simp at hth
    · rw [prodStep_not_running inp s hrun] at hth ⊢
      exact hP hth

/-- C4 amended witness: the run with a failed transfer is aborted. -/
theorem TimeseriesStream_producer_throw_aborts_process_witness :
    (TimeseriesStreamRun transportErrInput transportErrSched).status =
      RunStatus.aborted :=
  TimeseriesStream_producer_throw_aborts_process transportErrInput
    transportErrSched (by decide)

/-- C4 counterexample: the claim says a producer-side transport error is
captured and re-raised to the calling thread at the join.  In the run below
the chunked read fails after delivering its data while the consumer has not
failed (it has not even run): the process terminates from the background
thread, nothing is re-raised, and the caller observes nothing. -/
theorem TimeseriesStream_transport_error_lost_counterexample :
    transportErrInput.tErr = true ∧
    (TimeseriesStreamRun transportErrInput transportErrSched).status = .aborted ∧
    (TimeseriesStreamRun transportErrInput transportErrSched).prod = .threw ∧
    (TimeseriesStreamRun transportErrInput transportErrSched).events = [] := by
  decide

/-- C5 amended: the single producer task calls EndInput whenever the transfer
ends by success or by cooperative cancellation - every run whose producer
finished has signalled end-of-input. -/
theorem TimeseriesStream_endinput_on_done (inp : StreamInput)
    (sched : List Bool) :
    (TimeseriesStreamRun inp sched).prod = .done →
    (TimeseriesStreamRun inp sched).parser.ended = true := by
  refine runFrom_preserve inp (fun s => s.prod = .done → s.parser.ended = true)
    ?_ sched (initSys inp) (fun h => by simp [initSys] at h)
  intro s who hP
  cases who
  · intro hd
    have hframe := consStep_frame inp s
    show (consStep inp s).parser.ended = true
    rw [hframe.2.2]
    exact hP (by rw [← hframe.1]; exact hd)
  · intro hd
    replace hd : (prodStep inp s).prod = ProdPhase.done := hd
    show (prodStep inp s).parser.ended = true
    by_cases hrun : s.status = .running
    · cases hp : s.prod with
      | done =>
        rw [show prodStep inp s = s from by simp [prodStep, hrun, hp]] at hd ⊢
        exact hP hd
      | threw =>
        rw [show prodStep inp s = s from by simp [prodStep, hrun, hp]] at hd
        rw [hp] at hd
        simp at hd
      | deliver =>
        cases hpend : s.pending with
        | nil =>
          by_cases ht : inp.tErr
          · rw [show prodStep inp s = { s with prod := .threw, status := .aborted }
                from by simp [prodStep, hrun, hp, hpend, ht]] at hd
            simp at hd
          · rw [show prodStep inp s =
                { s with parser := EndInput s.parser, prod := .done }
                from by simp [prodStep, hrun, hp, hpend, ht]]
            rfl
        | cons c rest =>
          by_cases hsc : s.should_continue = true
          · rw [show prodStep inp s =
                { s with parser := PassChunk s.parser c, pending := rest }
                from by simp [prodStep, hrun, hp, hpend, hsc]] at hd
            simp [hp] at hd
          · rw [show prodStep inp s =
                { s with parser := EndInput (PassChunk s.parser c),
                         pending := rest, prod := .done }
                from by simp [prodStep, hrun, hp, hpend, hsc]]
            rfl
    · rw [prodStep_not_running inp s hrun] at hd ⊢
      exact hP hd

/-- C5 amended witness: in the completed concrete run the producer finished
and EndInput was signalled. -/
theorem TimeseriesStream_endinput_on_done_witness :
    (TimeseriesStreamRun okInput okSched).parser.ended = true :=
  TimeseriesStream_endinput_on_done okInput okSched (by decide)

/-- C5 counterexample: the claim says EndInput is called whenever the
transfer ends, in all three cases including error.  In the run below the
transfer has ended in error (all chunks consumed, GetRawStream threw) yet
EndInput was never called: the throw skips the dbz_parser.EndInput() line of
the thread lambda. -/
theorem TimeseriesStream_endinput_skipped_on_error_counterexample :
    (TimeseriesStreamRun transportErrInput transportErrSched).prod = .threw ∧
    (TimeseriesStreamRun transportErrInput transportErrSched).parser.ended = false ∧
    (TimeseriesStreamRun transportErrInput transportErrSched).pending = [] := by
  decide


theorem consStep_flag_stop (inp : StreamInput) (s : Sys)
    (hcb : ∀ r, inp.recCb r = some KeepGoing.Stop)
    (h : s.should_continue = false) :
    (consStep inp s).should_continue = false := by
  by_cases hrun : s.status = .running
  case neg => rw [consStep_not_running inp s hrun]; exact h
  case pos =>
  cases hcons : s.cons with
  | awaitMeta =>
    cases hmQ : s.parser.metaQ with
    | nil =>
      by_cases hend : s.parser.ended = true
      · rw [show consStep inp s = { s with status := .aborted } from by
          simp [consStep, hrun, hcons, hmQ, hend]]
        exact h
      · rw [show consStep inp s = s from by
          simp [consStep, hrun, hcons, hmQ, hend]]
        exact h
    | cons mm mrest =>
      by_cases hcb2 : inp.metaCb mm = true
      · rw [show consStep inp s =
            { s with parser := { s.parser with metaQ := mrest },
                     cons := .loop mm.record_count,
                     events := s.events ++ [.metaEv mm] } from by
          simp [consStep, hrun, hcons, hmQ, hcb2]]
        exact h
      · rw [show consStep inp s =
            { s with parser := { s.parser with metaQ := mrest },
                     events := s.events ++ [.metaEv mm],
                     status := .aborted } from by
          simp [consStep, hrun, hcons, hmQ, hcb2]]
        exact h
  | joinWait =>
    cases hp : s.prod with
    | done =>
      rw [show consStep inp s = { s with status := .returned } from by
        simp [consStep, hrun, hcons, hp]]
      exact h
    | deliver =>
      rw [show consStep inp s = s from by simp [consStep, hrun, hcons, hp]]
      exact h
    | threw =>
      rw [show consStep inp s = s from by simp [consStep, hrun, hcons, hp]]
      exact h
  | loop n =>
    cases n with
    | zero =>
      rw [show consStep inp s = { s with cons := .joinWait } from by
        simp [consStep, hrun, hcons]]
      exact h
    | succ k =>
      cases hrQ : s.parser.recQ with
      | nil =>
        by_cases hend : s.parser.ended = true
        · rw [show consStep inp s = { s with status := .aborted } from by
            simp [consStep, hrun, hcons, hrQ, hend]]
          exact h
        · rw [show consStep inp s = s from by
            simp [consStep, hrun, hcons, hrQ, hend]]
          exact h
      | cons r rrest =>
        have hkg : inp.recCb r = some KeepGoing.Stop := hcb r
        rw [show consStep inp s =
            { s with parser := { s.parser with recQ := rrest },
                     should_continue := decide (KeepGoing.Stop = KeepGoing.Continue),
                     events := s.events ++ [.recEv r], cons := .loop k } from by
          simp [consStep, hrun, hcons, hrQ, hkg]]
        rfl

theorem consStep_recEvents_nonempty_flag (inp : StreamInput) (s : Sys)
    (hcb : ∀ r, inp.recCb r = some KeepGoing.Stop)
    (hP : recEvents s.events ≠ [] → s.should_continue = false)
    (hne : recEvents (consStep inp s).events ≠ []) :
    (consStep inp s).should_continue = false := by
  by_cases hrun : s.status = .running
  case neg =>
    rw [consStep_not_running inp s hrun] at hne ⊢
    exact hP hne
  case pos =>
  cases hcons : s.cons with
  | awaitMeta =>
    cases hmQ : s.parser.metaQ with
    | nil =>
      by_cases hend : s.parser.ended = true
      · rw [show consStep inp s = { s with status := .aborted } from by
          simp [consStep, hrun, hcons, hmQ, hend]] at hne ⊢
        exact hP hne
      · rw [show consStep inp s = s from by
          simp [consStep, hrun, hcons, hmQ, hend]] at hne ⊢
        exact hP hne
    | cons mm mrest =>
      by_cases hcb2 : inp.metaCb mm = true
      · rw [show consStep inp s =
            { s with parser := { s.parser with metaQ := mrest },
                     cons := .loop mm.record_count,
                     events := s.events ++ [.metaEv mm] } from by
          simp [consStep, hrun, hcons, hmQ, hcb2]] at hne ⊢
        have hne2 : recEvents s.events ≠ [] := by
          intro hemp
          apply hne
          show recEvents (s.events ++ [Event.metaEv mm]) = []
          rw [recEvents_append, hemp, recEvents_metaEv]
          rfl
        exact hP hne2
      · rw [show consStep inp s =
            { s with parser := { s.parser with metaQ := mrest },
                     events := s.events ++ [.metaEv mm],
                     status := .aborted } from by
          simp [consStep, hrun, hcons, hmQ, hcb2]] at hne ⊢
        have hne2 : recEvents s.events ≠ [] := by
          intro hemp
          apply hne
          show recEvents (s.events ++ [Event.metaEv mm]) = []
          rw [recEvents_append, hemp, recEvents_metaEv]
          rfl
        exact hP hne2
  | joinWait =>
    cases hp : s.prod with
    | done =>
      rw [show consStep inp s = { s with status := .returned } from by
        simp [consStep, hrun, hcons, hp]] at hne ⊢
      exact hP hne
    | deliver =>
      rw [show consStep inp s = s from by simp [consStep, hrun, hcons, hp]] at hne ⊢
      exact hP hne
    | threw =>
      rw [show consStep inp s = s from by simp [consStep, hrun, hcons, hp]] at hne ⊢
      exact hP hne
  | loop n =>
    cases n with
    | zero =>
      rw [show consStep inp s = { s with cons := .joinWait } from by
        simp [consStep, hrun, hcons]] at hne ⊢
      exact hP hne
    | succ k =>
      cases hrQ : s.parser.recQ with
      | nil =>
        by_cases hend : s.parser.ended = true
        · rw [show consStep inp s = { s with status := .aborted } from by
            simp [consStep, hrun, hcons, hrQ, hend]] at hne ⊢
          exact hP hne
        · rw [show consStep inp s = s from by
            simp [consStep, hrun, hcons, hrQ, hend]] at hne ⊢
          exact hP hne
      | cons r rrest =>
        have hkg : inp.recCb r = some KeepGoing.Stop := hcb r
        rw [show consStep inp s =
            { s with parser := { s.parser with recQ := rrest },
                     should_continue := decide (KeepGoing.Stop = KeepGoing.Continue),
                     events := s.events ++ [.recEv r], cons := .loop k } from by
          simp [consStep, hrun, hcons, hrQ, hkg]]
        rfl

/-- With a record callback that always signals stop, any run whose trace
already holds a record invocation has a cleared stop flag. -/
theorem recEvents_nonempty_flag_false (inp : StreamInput)
    (hcb : ∀ r, inp.recCb r = some KeepGoing.Stop) (sched : List Bool) :
    recEvents (TimeseriesStreamRun inp sched).events ≠ [] →
    (TimeseriesStreamRun inp sched).should_continue = false := by
  refine runFrom_preserve inp
    (fun s => recEvents s.events ≠ [] → s.should_continue = false)
    ?_ sched (initSys inp) (fun hne => absurd rfl hne)
  intro s who hP
  cases who
  · exact fun hne => consStep_recEvents_nonempty_flag inp s hcb hP hne
  · intro hne
    have hframe := prodStep_frame inp s
    replace hne : recEvents (prodStep inp s).events ≠ [] := hne
    rw [hframe.2.2] at hne
    show (prodStep inp s).should_continue = false
    rw [hframe.1]
    exact hP hne

theorem sysStep_flagfalse_cases (inp : StreamInput) (s : Sys) (w : Bool)
    (hflag : s.should_continue = false) :
    ((sysStep inp s w).pending = s.pending ∧ (sysStep inp s w).prod = s.prod) ∨
    ((sysStep inp s w).pending = s.pending ∧ s.prod = .deliver ∧
      ¬ (sysStep inp s w).prod = .deliver) ∨
    (∃ c, s.pending = c :: (sysStep inp s w).pending ∧ s.prod = .deliver ∧
      ¬ (sysStep inp s w).prod = .deliver) := by
  cases w
  · exact Or.inl ⟨(consStep_frame inp s).2.1, (consStep_frame inp s).1⟩
  · show ((prodStep inp s).pending = s.pending ∧ (prodStep inp s).prod = s.prod) ∨
      ((prodStep inp s).pending = s.pending ∧ s.prod = .deliver ∧
        ¬ (prodStep inp s).prod = .deliver) ∨
      (∃ c, s.pending = c :: (prodStep inp s).pending ∧ s.prod = .deliver ∧
        ¬ (prodStep inp s).prod = .deliver)
    by_cases hrun : s.status = .running
    · cases hp : s.prod with
      | done =>
        rw [show prodStep inp s = s from by simp [prodStep, hrun, hp]]
        exact Or.inl ⟨rfl, hp⟩
      | threw =>
        rw [show prodStep inp s = s from by simp [prodStep, hrun, hp]]
        exact Or.inl ⟨rfl, hp⟩
      | deliver =>
        cases hpend : s.pending with
        | nil =>
          by_cases ht : inp.tErr
          · rw [show prodStep inp s = { s with prod := .threw, status := .aborted }
                from by simp [prodStep, hrun, hp, hpend, ht]]
            exact Or.inr (Or.inl ⟨hpend, rfl, by simp⟩)
          · rw [show prodStep inp s =
                { s with parser := EndInput s.parser, prod := .done }
                from by simp [prodStep, hrun, hp, hpend, ht]]
            exact Or.inr (Or.inl ⟨hpend, rfl, by simp⟩)
        | cons c rest =>
          rw [show prodStep inp s =
              { s with parser := EndInput (PassChunk s.parser c),
                       pending := rest, prod := .done }
              from by simp [prodStep, hrun, hp, hpend, hflag]]
          exact Or.inr (Or.inr ⟨c, rfl, rfl, by simp⟩)
    · rw [prodStep_not_running inp s hrun]
      exact Or.inl ⟨rfl, rfl⟩

theorem runFrom_pending_bound (inp : StreamInput)
    (hcb : ∀ r, inp.recCb r = some KeepGoing.Stop) :
    ∀ (sched : List Bool) (s : Sys), s.should_continue = false →
      s.pending.length ≤ (runFrom inp s sched).pending.length +
        (if s.prod = .deliver then 1 else 0) := by
  intro sched
  induction sched with
  | nil => intro s _; exact Nat.le_add_right _ _
  | cons w ws ih =>
    intro s hflag
    have hflag2 : (sysStep inp s w).should_continue = false := by
      cases w
      · exact consStep_flag_stop inp s hcb hflag
      · show (prodStep inp s).should_continue = false
        rw [(prodStep_frame inp s).1]
        exact hflag
    have hstep := ih (sysStep inp s w) hflag2
    rw [runFrom_cons]
    rcases sysStep_flagfalse_cases inp s w hflag with
      ⟨hpend, hprod⟩ | ⟨hpend, hdel, hnd⟩ | ⟨c, hpend, hdel, hnd⟩
    · rw [hpend, hprod] at hstep
      exact hstep
    · rw [if_neg hnd] at hstep
      rw [hpend] at hstep
      rw [if_pos hdel]
      omega
    · rw [if_neg hnd] at hstep
      rw [if_pos hdel, hpend]
      simp only [List.length_cons]
      omega

/-- C2 amended: the record callback result is assigned to the shared stop
flag after every record (a later Continue would re-arm the producer, so the
bound is stated for a callback that always returns Stop); once a record
invocation has happened the flag is down and the producer, which observes it
between chunk deliveries, delivers at most ONE further chunk before
terminating the transfer.  The consumer is not bounded by the flag: it keeps
invoking the callback for every remaining record up to the declared count,
as the counterexample shows. -/
theorem TimeseriesStream_stop_producer_chunk_bound (inp : StreamInput)
    (hcb : ∀ r, inp.recCb r = some KeepGoing.Stop) (sched₁ sched₂ : List Bool)
    (hne : recEvents (TimeseriesStreamRun inp sched₁).events ≠ []) :
    (TimeseriesStreamRun inp sched₁).pending.length ≤
      (TimeseriesStreamRun inp (sched₁ ++ sched₂)).pending.length + 1 := by
  have hflag := recEvents_nonempty_flag_false inp hcb sched₁ hne
  have hb := runFrom_pending_bound inp hcb sched₂ (TimeseriesStreamRun inp sched₁)
    hflag
  have hsplit : TimeseriesStreamRun inp (sched₁ ++ sched₂) =
      runFrom inp (TimeseriesStreamRun inp sched₁) sched₂ :=
    runFrom_append inp (initSys inp) sched₁ sched₂
  rw [hsplit]
  have hif : (if (TimeseriesStreamRun inp sched₁).prod = .deliver then 1 else 0)
      ≤ 1 := by
    split <;> omega
  omega

/-- C2 amended witness: after the stop at the first record, the producer of
the concrete three-chunk stream delivers at most one further chunk under any
continuation. -/
theorem TimeseriesStream_stop_producer_chunk_bound_witness :
    (TimeseriesStreamRun stopInput [true, false, false]).pending.length ≤
      (TimeseriesStreamRun stopInput
        ([true, false, false] ++ [true, true, true])).pending.length + 1 :=
  TimeseriesStream_stop_producer_chunk_bound stopInput (fun _ => rfl)
    [true, false, false] [true, true, true] (by decide)

/-- C2 counterexample: the claim says no more than one additional chunk worth
of records is processed through the callback after the stop signal.  In the
run below all three single-record chunks are buffered before the consumer
starts; the callback signals stop at the first record, yet the two remaining
records - spanning two further chunks, i.e. two chunks worth - are still
processed through the callback, and the run completes normally. -/
theorem TimeseriesStream_stop_extra_records_counterexample :
    (TimeseriesStreamRun stopInput stopSched).status = .returned ∧
    recEvents (TimeseriesStreamRun stopInput stopSched).events =
      [⟨1⟩, ⟨2⟩, ⟨3⟩] ∧
    stopInput.recCb ⟨1⟩ = some KeepGoing.Stop ∧
    ((recEvents (TimeseriesStreamRun stopInput stopSched).events).drop 1).length
      = 2 ∧
    stopInput.chunks.map (fun c => (frameRecs c).length) = [1, 1, 1] ∧
    1 < ((recEvents (TimeseriesStreamRun stopInput stopSched).events).drop
      1).length := by
  decide

end Databento
